import Mathlib

/-!
Shallow embedding of the BLS pairing cache of the chia_rs repository
(`crates/chia-bls/src/cached_bls.rs`, with the older `chia-bls/src/cached_bls.rs`
agreeing on every point used here) and of the public-key operations of
`chia-bls/src/public_key.rs`.  The out-of-scope curve collaborators (blst
primitives, the stateless batch verifier, SHA-256 and the `lru` crate's store)
are modelled from the specification as explicit parameters or list models.
-/

namespace ChiaBLS

/-- Byte strings (Rust `&[u8]` / `Vec<u8>` / fixed arrays), modelled as lists of naturals. -/
abbrev Bytes := List Nat

/-- Modelled from the spec: the out-of-scope Curve Primitives collaborator
(spec sections 1, 4.1, 4.2): public keys (G1) of some type `PK`, signatures and
hash-to-curve images (G2) of type `Sig`, pairing results (GT) of type `GT`,
SHA-256 digests, compressed-form (de)serialization (`from_bytes` the checked
parse used by the cached path, `from_bytes_unchecked` the parse without the
subgroup check used by the fallback path), and the blst validity and
core-verification primitives used by `PublicKey::is_valid` / `PublicKey::verify`.
None of their sources are part of the excerpt; only their interfaces are. -/
structure Prims (PK Sig GT : Type) where
  sha256 : Bytes → Bytes
  hash_to_g2 : Bytes → Sig
  pair : Sig → PK → GT
  generator : PK
  to_bytes : PK → Bytes
  from_bytes : Bytes → Option PK
  from_bytes_unchecked : Bytes → Option PK
  isInf : PK → Bool
  inG1 : PK → Bool
  sig_is_valid : Sig → Bool
  core_verify : PK → Sig → Bytes → Bool

/-- Association-list lookup, first entry with the key wins.  This is the
content-level view of both the `LruCache` store and the local `HashMap` memo
of `get_pairings`. -/
def assocLookup {α : Type} : List (Bytes × α) → Bytes → Option α
  | [], _ => none
  | e :: rest, k => if e.1 = k then some e.2 else assocLookup rest k

/-- `BLSCache` (`cached_bls.rs`).  The store is Modelled from the spec: the
external `lru::LruCache` keyed by 32-byte digests, holding GT elements, entries
listed most-recently-used first and the entry count bounded by `capacity`
(spec section 3). -/
structure BLSCache (GT : Type) where
  capacity : Nat
  entries : List (Bytes × GT)
  deriving DecidableEq

/-- Remove every entry with the given key (the `LruCache` promotes an entry by
removing it and re-inserting it at the most-recently-used end). -/
def removeKey {GT : Type} : List (Bytes × GT) → Bytes → List (Bytes × GT)
  | [], _ => []
  | e :: rest, k => if e.1 = k then removeKey rest k else e :: removeKey rest k

/-- Modelled from the spec: `LruCache::get` — on a hit returns the stored value
and refreshes the entry to most-recently-used; on a miss leaves the store
unchanged. -/
def lruGet {GT : Type} (c : BLSCache GT) (k : Bytes) : Option GT × BLSCache GT :=
  match assocLookup c.entries k with
  | none => (none, c)
  | some v => (some v, ⟨c.capacity, (k, v) :: removeKey c.entries k⟩)

/-- Modelled from the spec: `LruCache::put` — inserts (or refreshes) the entry
as most-recently-used and evicts from the least-recently-used end whenever the
entry count would exceed the capacity. -/
def lruPut {GT : Type} (c : BLSCache GT) (k : Bytes) (v : GT) : BLSCache GT :=
  ⟨c.capacity, ((k, v) :: removeKey c.entries k).take c.capacity⟩

/-- Modelled from the spec: `Sha256::new()` — the incremental hasher starts
with no accumulated bytes. -/
def hasherInit : Bytes := []

/-- Modelled from the spec: `Sha256::update` — appends a chunk to the
accumulated bytes. -/
def hasherUpdate (st chunk : Bytes) : Bytes := st ++ chunk

/-- The cache key computed in the scan phase of `get_pairings`
(`hasher.update(pk); hasher.update(msg)` followed by `finalize`). -/
def scanKey {PK Sig GT : Type} (P : Prims PK Sig GT) (pk msg : Bytes) : Bytes :=
  P.sha256 (hasherUpdate (hasherUpdate hasherInit pk) msg)

/-- The cache key computed in the population phase of `get_pairings`
(`hasher.update(&aug_msg)` followed by `finalize`). -/
def insertKey {PK Sig GT : Type} (P : Prims PK Sig GT) (aug : Bytes) : Bytes :=
  P.sha256 (hasherUpdate hasherInit aug)

/-- The scan loop of `get_pairings` (`cached_bls.rs` lines 57-76): for each
(key, message) pair, compute the cache key, look it up (refreshing recency),
and if `force_cache` is false and the lookup produced a value, bump
`missing_count` and return an empty result once it exceeds `half`
(`pks.len() / 2`); otherwise push the lookup result.  The first component is
`none` exactly when the heuristic returned `vec![]`. -/
def scanPairs {PK Sig GT : Type} (P : Prims PK Sig GT) (fc : Bool) (half : Nat) :
    List (Bytes × Bytes) → BLSCache GT → Nat → Option (List (Option GT)) × BLSCache GT
  | [], c, _ => (some [], c)
  | (pk, msg) :: rest, c, mc =>
    let r0 := lruGet c (scanKey P pk msg)
    if !fc && r0.1.isSome then
      if half < mc + 1 then (none, r0.2)
      else
        let r := scanPairs P fc half rest r0.2 (mc + 1)
        (Option.map (fun l => r0.1 :: l) r.1, r.2)
    else
      let r := scanPairs P fc half rest r0.2 mc
      (Option.map (fun l => r0.1 :: l) r.1, r.2)

/-- The population loop of `get_pairings` (`cached_bls.rs` lines 78-105):
cached results are pushed as-is; for each missing position the augmented
message `pk ++ msg` is hashed to G2, the key is parsed through the local
`pk_bytes_to_g1` memo (`HashMap`) with `PublicKey::from_bytes(..).unwrap()` on
a memo miss — the `unwrap` panic is modelled by returning `none` — the pairing
is computed, inserted into the cache under the SHA-256 of the augmented
message, and pushed. -/
def computePairs {PK Sig GT : Type} (P : Prims PK Sig GT) :
    List (Bytes × Bytes) → List (Option GT) → BLSCache GT → List (Bytes × PK) →
    Option (List GT × BLSCache GT)
  | _, [], c, _ => some ([], c)
  | [], _ :: _, c, _ => some ([], c)
  | (pk, msg) :: prest, opt :: orest, c, memo =>
    match opt with
    | some g =>
      match computePairs P prest orest c memo with
      | none => none
      | some (ps, c1) => some (g :: ps, c1)
    | none =>
      let aug := pk ++ msg
      match
        (match assocLookup memo pk with
         | some k => some (k, memo)
         | none =>
           match P.from_bytes pk with
           | none => none
           | some k => some (k, (pk, k) :: memo)) with
      | none => none
      | some (k, memo1) =>
        let g := P.pair (P.hash_to_g2 aug) k
        match computePairs P prest orest (lruPut c (insertKey P aug) g) memo1 with
        | none => none
        | some (ps, c1) => some (g :: ps, c1)

/-- `BLSCache::get_pairings` (`cached_bls.rs` lines 48-106).  `none` models the
`unwrap` panic on a key the checked parse rejects; `some ([], c)` is the
heuristic's `vec![]` return (and the empty-batch result). -/
def get_pairings {PK Sig GT : Type} (P : Prims PK Sig GT)
    (pks msgs : List Bytes) (fc : Bool) (c : BLSCache GT) :
    Option (List GT × BLSCache GT) :=
  match scanPairs P fc (pks.length / 2) (pks.zip msgs) c 0 with
  | (none, c1) => some ([], c1)
  | (some opts, c1) => computePairs P (pks.zip msgs) opts c1 []

/-- Modelled from the spec: the stateless Batch Verifier `crate::aggregate_verify`
(spec section 4.2), imported as `agg_ver` by `cached_bls.rs` and absent from the
excerpt: for every (key, message) pair compute the augmented message
(key bytes followed by the message), hash it to G2, pair it against the key
point, and compare the product of all the pairing results with the pairing of
the aggregate signature against the G1 generator. -/
def agg_ver {PK Sig GT : Type} [DecidableEq GT] [CommMonoid GT]
    (P : Prims PK Sig GT) (sig : Sig) (data : List (PK × Bytes)) : Bool :=
  decide
    ((data.map (fun pm => P.pair (P.hash_to_g2 (P.to_bytes pm.1 ++ pm.2)) pm.1)).prod =
      P.pair sig P.generator)

/-- The fallback-path loop of `BLSCache::aggregate_verify` (lines 117-124):
parse every key with `PublicKey::from_bytes_unchecked(..).unwrap()` (the panic
modelled as `none`) and pair it with its message. -/
def fallbackData {PK Sig GT : Type} (P : Prims PK Sig GT) :
    List (Bytes × Bytes) → Option (List (PK × Bytes))
  | [] => some []
  | (pk, msg) :: rest =>
    match P.from_bytes_unchecked pk with
    | none => none
    | some k =>
      match fallbackData P rest with
      | none => none
      | some d => some ((k, msg) :: d)

/-- `BLSCache::aggregate_verify` (`cached_bls.rs` lines 108-136): obtain the
pairings; on an empty result fall back to the stateless verifier over
unchecked-parsed keys; otherwise pop the last pairing, multiply the remaining
ones into it left to right, and compare with the pairing of the signature
against the generator. -/
def aggregate_verify {PK Sig GT : Type} [DecidableEq GT] [CommMonoid GT]
    (P : Prims PK Sig GT) (pks msgs : List Bytes) (sig : Sig) (fc : Bool)
    (c : BLSCache GT) : Option (Bool × BLSCache GT) :=
  match get_pairings P pks msgs fc c with
  | none => none
  | some (pairings, c1) =>
    if pairings.isEmpty then
      match fallbackData P (pks.zip msgs) with
      | none => none
      | some data => some (agg_ver P sig data, c1)
    else
      match pairings.getLast? with
      | some prod0 =>
        some
          (decide
            (List.foldl (fun a b => a * b) prod0 pairings.dropLast =
              P.pair sig P.generator), c1)
      | none => some (pairings.isEmpty, c1)

/-- The stateless Batch Verifier applied to raw byte keys: unchecked-parse
every key (spec section 4.2 pairs "the (unchecked-parsed) key") and run
`agg_ver`.  The `none` case models the parse `unwrap` panic. -/
def statelessAggregateVerify {PK Sig GT : Type} [DecidableEq GT] [CommMonoid GT]
    (P : Prims PK Sig GT) (pks msgs : List Bytes) (sig : Sig) : Option Bool :=
  match fallbackData P (pks.zip msgs) with
  | none => none
  | some data => some (agg_ver P sig data)

/-- `BLSCache::new` (`cached_bls.rs` lines 36-40):
`LruCache::new(NonZeroUsize::new(cache_size).unwrap())` — panics (modelled as
`none`) when the requested capacity is zero. -/
def BLSCache.new (GT : Type) (cacheSize : Nat) : Option (BLSCache GT) :=
  if cacheSize = 0 then none else some ⟨cacheSize, []⟩

/-- `impl Default for BLSCache` (`cached_bls.rs` lines 29-33): `Self::new(50000)`. -/
def BLSCache.defaultCache (GT : Type) : Option (BLSCache GT) :=
  BLSCache.new GT 50000

/-- `BLSCache::generator` (`cached_bls.rs` lines 42-46):
capacity `cache_size.unwrap_or(50000)`, zero still panics. -/
def BLSCache.generator (GT : Type) (cacheSize : Option Nat) : Option (BLSCache GT) :=
  BLSCache.new GT (cacheSize.getD 50000)

/-- `PublicKey::is_valid` (`public_key.rs` lines 50-52): not the point at
infinity and a member of the G1 subgroup. -/
def is_valid {PK Sig GT : Type} (P : Prims PK Sig GT) (pk : PK) : Bool :=
  !P.isInf pk && P.inG1 pk

/-- Modelled from the spec: `aug_scheme::prepend_message` (absent from the
excerpt) — the signer's public key bytes prepended to the message (spec
glossary, "Augmented scheme"). -/
def prepend_message {PK Sig GT : Type} (P : Prims PK Sig GT) (pk : PK) (msg : Bytes) : Bytes :=
  P.to_bytes pk ++ msg

/-- `PublicKey::verify` (`public_key.rs` lines 72-92): reject when the key or
the signature fails its validity check, otherwise run the blst core pairing
check on the augmented message. -/
def verify {PK Sig GT : Type} (P : Prims PK Sig GT) (pk : PK) (msg : Bytes) (sig : Sig) : Bool :=
  if !is_valid P pk || !P.sig_is_valid sig then false
  else P.core_verify pk sig (prepend_message P pk msg)

/-- `PublicKey::from_bytes` (`public_key.rs` lines 27-40): reject unless the
top bit of the first byte (the compression marker) is set, then attempt
decompression (`blst_p1_uncompress`, an external primitive passed in as
`uncompress`). -/
def from_bytes_src {PK : Type} (uncompress : Bytes → Option PK) (b : Bytes) : Option PK :=
  if b.headD 0 &&& 128 ≠ 0 then uncompress b else none

/-- Fold a list of (key, value) insertions into the cache, left to right.
Used to state the LRU eviction property over the store model. -/
def putAll {GT : Type} (c : BLSCache GT) : List (Bytes × GT) → BLSCache GT
  | [] => c
  | e :: rest => putAll (lruPut c e.1 e.2) rest

/-- Run a sequence of `get_pairings` calls (each described by keys, messages
and the `force_cache` flag) against the cache, threading the state;
`none` once any call panics. -/
def runGetPairings {PK Sig GT : Type} (P : Prims PK Sig GT) :
    List (List Bytes × List Bytes × Bool) → BLSCache GT → Option (BLSCache GT)
  | [], c => some c
  | call :: rest, c =>
    match get_pairings P call.1 call.2.1 call.2.2 c with
    | none => none
    | some (_, c1) => runGetPairings P rest c1

/-- The per-pair specification of a `get_pairings` result entry: the value
cached under SHA-256 of `pk ++ msg` in the starting cache if present,
otherwise the pairing of the hashed augmented message against the
checked-parsed key. -/
def specPairingResult {PK Sig GT : Type} (P : Prims PK Sig GT) (c : BLSCache GT)
    (pk msg : Bytes) : Option GT :=
  match assocLookup c.entries (P.sha256 (pk ++ msg)) with
  | some g => some g
  | none => (P.from_bytes pk).map (fun k => P.pair (P.hash_to_g2 (pk ++ msg)) k)

/-- The invariant of the local `pk_bytes_to_g1` memo of `get_pairings`: every
memoized key is the checked parse of its bytes. -/
def memoOK {PK Sig GT : Type} (P : Prims PK Sig GT) (memo : List (Bytes × PK)) : Prop :=
  ∀ pk k, assocLookup memo pk = some k → P.from_bytes pk = some k

/-- Modelled from the spec: a concrete instantiation of the collaborator
primitives used to evaluate the embedding on concrete inputs.  Public keys are
carried as their compressed bytes, G2 and GT elements as naturals (GT under
multiplication), the digest stand-in is injective, the compression-marker
check follows the 48-byte wire format (top bit of byte 0), and the subgroup
stand-in accepts exactly the encodings whose second byte is even, so that keys
accepted by the unchecked parse but rejected by the checked parse exist, as
spec section 7 requires. -/
def subgroupOkM : Bytes → Bool := fun b => b.getD 1 0 % 2 == 0

/-- The concrete model's `blst_p1_uncompress`: decompression always succeeds,
returning the point represented by its own compressed bytes. -/
def uncompressM : Bytes → Option Bytes := fun b => some b

/-- The concrete model's unchecked parse: compression marker only. -/
def from_bytes_uncheckedM : Bytes → Option Bytes := from_bytes_src uncompressM

/-- The concrete model's checked parse: compression marker plus the subgroup
stand-in. -/
def from_bytesM : Bytes → Option Bytes := fun b =>
  match from_bytes_uncheckedM b with
  | none => none
  | some k => if subgroupOkM k then some k else none

/-- The concrete collaborator bundle. -/
def PrimsM : Prims Bytes Nat Nat where
  sha256 := fun b => 99 :: b
  hash_to_g2 := fun b => b.sum
  pair := fun s k => s + k.sum + 1
  generator := [151, 0]
  to_bytes := fun k => k
  from_bytes := from_bytesM
  from_bytes_unchecked := from_bytes_uncheckedM
  isInf := fun k => k == []
  inG1 := subgroupOkM
  sig_is_valid := fun s => s % 2 == 0
  core_verify := fun _ s m => (s + m.sum) % 3 == 0

/-! ### Lemmas about the association-list and LRU store model -/

theorem assocLookup_removeKey_ne {GT : Type} (l : List (Bytes × GT)) (k k' : Bytes)
    (h : k' ≠ k) :
    assocLookup (removeKey l k) k' = assocLookup l k' := by
  induction l with
  | nil => rfl
  | cons e rest ih =>
    by_cases he : e.1 = k
    · have hkk : ¬ k = k' := fun hh => h hh.symm
      simp only [removeKey, he, if_true, assocLookup, hkk, if_false, ih]
    · by_cases he' : e.1 = k'
      · simp only [removeKey, he, if_false, assocLookup, he', if_true, h]
      · simp only [removeKey, he, if_false, assocLookup, he', ih]

theorem assocLookup_eq_none_iff {GT : Type} (l : List (Bytes × GT)) (k : Bytes) :
    assocLookup l k = none ↔ k ∉ l.map Prod.fst := by
  induction l with
  | nil => simp [assocLookup]
  | cons e rest ih =>
    by_cases he : e.1 = k
    · simp [assocLookup, he]
    · simp only [assocLookup, he, if_false, List.map_cons, List.mem_cons, ih]
      constructor
      · intro h hk
        rcases hk with h1 | h2
        · exact he h1.symm
        · exact h h2
      · intro h hk
        exact h (Or.inr hk)

theorem removeKey_eq_self {GT : Type} (l : List (Bytes × GT)) (k : Bytes)
    (h : assocLookup l k = none) :
    removeKey l k = l := by
  induction l with
  | nil => rfl
  | cons e rest ih =>
    by_cases he : e.1 = k
    · simp [assocLookup, he] at h
    · simp only [assocLookup, he, if_false] at h
      simp [removeKey, he, ih h]

theorem assocLookup_take {GT : Type} (l : List (Bytes × GT)) (k : Bytes) (n : Nat)
    (h : assocLookup l k = none) :
    assocLookup (l.take n) k = none := by
  rw [assocLookup_eq_none_iff] at h ⊢
  intro hk
  rw [List.map_take] at hk
  exact h (List.mem_of_mem_take hk)

theorem length_removeKey_le {GT : Type} (l : List (Bytes × GT)) (k : Bytes) :
    (removeKey l k).length ≤ l.length := by
  induction l with
  | nil => exact Nat.le_refl _
  | cons e rest ih =>
    by_cases he : e.1 = k
    · simp only [removeKey, he, if_true, List.length_cons]
      exact Nat.le_succ_of_le ih
    · simp only [removeKey, he, if_false, List.length_cons]
      exact Nat.succ_le_succ ih

theorem length_removeKey_lt_of_lookup_some {GT : Type} (l : List (Bytes × GT))
    (k : Bytes) (v : GT) (h : assocLookup l k = some v) :
    (removeKey l k).length < l.length := by
  induction l with
  | nil => simp [assocLookup] at h
  | cons e rest ih =>
    by_cases he : e.1 = k
    · simp only [removeKey, he, if_true, List.length_cons]
      exact Nat.lt_succ_of_le (length_removeKey_le _ _)
    · simp only [assocLookup, he, if_false] at h
      simp only [removeKey, he, if_false, List.length_cons]
      exact Nat.succ_lt_succ (ih h)

theorem lruGet_fst {GT : Type} (c : BLSCache GT) (k : Bytes) :
    (lruGet c k).1 = assocLookup c.entries k := by
  unfold lruGet
  cases assocLookup c.entries k <;> rfl

theorem lruGet_miss {GT : Type} (c : BLSCache GT) (k : Bytes)
    (h : assocLookup c.entries k = none) : lruGet c k = (none, c) := by
  unfold lruGet
  rw [h]

theorem lruGet_capacity {GT : Type} (c : BLSCache GT) (k : Bytes) :
    (lruGet c k).2.capacity = c.capacity := by
  unfold lruGet
  cases assocLookup c.entries k <;> rfl

theorem lruGet_lookup {GT : Type} (c : BLSCache GT) (k k' : Bytes) :
    assocLookup (lruGet c k).2.entries k' = assocLookup c.entries k' := by
  unfold lruGet
  cases hv : assocLookup c.entries k with
  | none => rfl
  | some v =>
    by_cases hk : k' = k
    · subst hk
      simp [assocLookup, hv]
    · have hk2 : ¬ k = k' := fun hh => hk hh.symm
      simp [assocLookup, hk2, assocLookup_removeKey_ne _ _ _ hk]

theorem lruGet_length_le {GT : Type} (c : BLSCache GT) (k : Bytes) :
    (lruGet c k).2.entries.length ≤ c.entries.length := by
  unfold lruGet
  cases hv : assocLookup c.entries k with
  | none => exact Nat.le_refl _
  | some v =>
    simpa using Nat.succ_le_of_lt (length_removeKey_lt_of_lookup_some _ _ _ hv)

theorem lruPut_capacity {GT : Type} (c : BLSCache GT) (k : Bytes) (v : GT) :
    (lruPut c k v).capacity = c.capacity := rfl

theorem lruPut_length_le {GT : Type} (c : BLSCache GT) (k : Bytes) (v : GT) :
    (lruPut c k v).entries.length ≤ c.capacity := by
  simp [lruPut]

theorem lruPut_lookup_self {GT : Type} (c : BLSCache GT) (k : Bytes) (v : GT)
    (hcap : 0 < c.capacity) :
    assocLookup (lruPut c k v).entries k = some v := by
  unfold lruPut
  obtain ⟨m, hm⟩ : ∃ m, c.capacity = m + 1 := ⟨c.capacity - 1, by omega⟩
  simp [hm, assocLookup]

/-! ### Lemmas about the scan phase of `get_pairings` -/

theorem scanPairs_capacity {PK Sig GT : Type} (P : Prims PK Sig GT) (fc : Bool)
    (half : Nat) (pairs : List (Bytes × Bytes)) :
    ∀ (c : BLSCache GT) (mc : Nat),
      (scanPairs P fc half pairs c mc).2.capacity = c.capacity := by
  induction pairs with
  | nil => intro c mc; rfl
  | cons pm rest ih =>
    intro c mc
    obtain ⟨pk, msg⟩ := pm
    simp only [scanPairs]
    split
    · split
      · exact lruGet_capacity c _
      · exact (ih _ _).trans (lruGet_capacity c _)
    · exact (ih _ _).trans (lruGet_capacity c _)

theorem scanPairs_length_le {PK Sig GT : Type} (P : Prims PK Sig GT) (fc : Bool)
    (half : Nat) (pairs : List (Bytes × Bytes)) :
    ∀ (c : BLSCache GT) (mc : Nat),
      (scanPairs P fc half pairs c mc).2.entries.length ≤ c.entries.length := by
  induction pairs with
  | nil => intro c mc; exact Nat.le_refl _
  | cons pm rest ih =>
    intro c mc
    obtain ⟨pk, msg⟩ := pm
    simp only [scanPairs]
    split
    · split
      · exact lruGet_length_le c _
      · exact Nat.le_trans (ih _ _) (lruGet_length_le c _)
    · exact Nat.le_trans (ih _ _) (lruGet_length_le c _)

theorem scanPairs_lookup {PK Sig GT : Type} (P : Prims PK Sig GT) (fc : Bool)
    (half : Nat) (pairs : List (Bytes × Bytes)) :
    ∀ (c : BLSCache GT) (mc : Nat) (k : Bytes),
      assocLookup (scanPairs P fc half pairs c mc).2.entries k =
        assocLookup c.entries k := by
  induction pairs with
  | nil => intro c mc k; rfl
  | cons pm rest ih =>
    intro c mc k
    obtain ⟨pk, msg⟩ := pm
    simp only [scanPairs]
    split
    · split
      · exact lruGet_lookup c _ k
      · exact (ih _ _ k).trans (lruGet_lookup c _ k)
    · exact (ih _ _ k).trans (lruGet_lookup c _ k)

theorem scanPairs_some {PK Sig GT : Type} (P : Prims PK Sig GT) (fc : Bool)
    (half : Nat) (pairs : List (Bytes × Bytes)) :
    ∀ (c : BLSCache GT) (mc : Nat) (opts : List (Option GT)),
      (scanPairs P fc half pairs c mc).1 = some opts →
        opts = pairs.map (fun pm => assocLookup c.entries (scanKey P pm.1 pm.2)) := by
  induction pairs with
  | nil =>
    intro c mc opts h
    simp only [scanPairs] at h
    cases h
    rfl
  | cons pm rest ih =>
    intro c mc opts h
    obtain ⟨pk, msg⟩ := pm
    simp only [scanPairs] at h
    have step :
        ∀ mc2 : Nat,
          (Option.map (fun l => (lruGet c (scanKey P pk msg)).1 :: l)
              (scanPairs P fc half rest (lruGet c (scanKey P pk msg)).2 mc2).1 = some opts) →
          opts = ((pk, msg) :: rest).map
            (fun pm => assocLookup c.entries (scanKey P pm.1 pm.2)) := by
      intro mc2 hm
      rcases Option.map_eq_some'.mp hm with ⟨l, hl, hopts⟩
      have hl2 := ih _ mc2 l hl
      subst hopts
      simp only [List.map_cons]
      rw [lruGet_fst, hl2]
      exact congrArg (fun t => assocLookup c.entries (scanKey P pk msg) :: t)
        (List.map_congr_left (fun pm _ => lruGet_lookup c _ _))
    split at h
    · split at h
      · cases h
      · exact step _ h
    · exact step _ h

theorem scanPairs_nil_entries {PK Sig GT : Type} (P : Prims PK Sig GT) (fc : Bool)
    (half : Nat) (pairs : List (Bytes × Bytes)) (c : BLSCache GT)
    (hc : c.entries = []) :
    ∀ mc : Nat,
      scanPairs P fc half pairs c mc = (some (pairs.map fun _ => (none : Option GT)), c) := by
  induction pairs with
  | nil => intro mc; rfl
  | cons pm rest ih =>
    intro mc
    obtain ⟨pk, msg⟩ := pm
    have hmiss : lruGet c (scanKey P pk msg) = (none, c) := by
      apply lruGet_miss
      rw [hc]
      rfl
    simp only [scanPairs, hmiss, Option.isSome_none, Bool.and_false, Bool.false_eq_true,
      if_false, ih, Option.map_some', List.map_cons]

/-! ### Lemmas about the population phase of `get_pairings` -/

theorem memoOK_nil {PK Sig GT : Type} (P : Prims PK Sig GT) : memoOK P [] := by
  intro pk k h
  cases h

theorem memoOK_cons {PK Sig GT : Type} (P : Prims PK Sig GT)
    (memo : List (Bytes × PK)) (pk : Bytes) (k : PK)
    (hm : memoOK P memo) (hf : P.from_bytes pk = some k) :
    memoOK P ((pk, k) :: memo) := by
  intro pk' k' hl
  by_cases h : pk = pk'
  · subst h
    simp only [assocLookup, if_pos rfl] at hl
    cases hl
    exact hf
  · simp only [assocLookup, h, if_false] at hl
    exact hm _ _ hl

theorem computePairs_state {PK Sig GT : Type} (P : Prims PK Sig GT) :
    ∀ (opts : List (Option GT)) (pairs : List (Bytes × Bytes)) (c : BLSCache GT)
      (memo : List (Bytes × PK)) (ps : List GT) (c1 : BLSCache GT),
      c.entries.length ≤ c.capacity →
      computePairs P pairs opts c memo = some (ps, c1) →
      c1.capacity = c.capacity ∧ c1.entries.length ≤ c.capacity := by
  intro opts
  induction opts with
  | nil =>
    intro pairs c memo ps c1 hlen h
    cases pairs <;> (simp only [computePairs] at h; cases h; exact ⟨rfl, hlen⟩)
  | cons opt orest ih =>
    intro pairs c memo ps c1 hlen h
    cases pairs with
    | nil =>
      simp only [computePairs] at h
      cases h
      exact ⟨rfl, hlen⟩
    | cons pm prest =>
      obtain ⟨pk, msg⟩ := pm
      cases opt with
      | some g =>
        simp only [computePairs] at h
        cases hrec : computePairs P prest orest c memo with
        | none => rw [hrec] at h; cases h
        | some pc =>
          obtain ⟨ps2, c2⟩ := pc
          rw [hrec] at h
          cases h
          exact ih _ _ _ _ _ hlen hrec
      | none =>
        simp only [computePairs] at h
        cases hp : (match assocLookup memo pk with
          | some k => some (k, memo)
          | none =>
            match P.from_bytes pk with
            | none => none
            | some k => some (k, (pk, k) :: memo)) with
        | none => rw [hp] at h; cases h
        | some km =>
          obtain ⟨k, memo1⟩ := km
          rw [hp] at h
          dsimp only at h
          cases hrec : computePairs P prest orest
              (lruPut c (insertKey P (pk ++ msg)) (P.pair (P.hash_to_g2 (pk ++ msg)) k))
              memo1 with
          | none => rw [hrec] at h; cases h
          | some pc =>
            obtain ⟨ps2, c2⟩ := pc
            rw [hrec] at h
            cases h
            have hput := ih _ _ _ _ _
              (by rw [lruPut_capacity]; exact lruPut_length_le c _ _) hrec
            rw [lruPut_capacity] at hput
            exact hput

theorem computePairs_length {PK Sig GT : Type} (P : Prims PK Sig GT) :
    ∀ (opts : List (Option GT)) (pairs : List (Bytes × Bytes)) (c : BLSCache GT)
      (memo : List (Bytes × PK)) (ps : List GT) (c1 : BLSCache GT),
      computePairs P pairs opts c memo = some (ps, c1) →
      ps.length = min pairs.length opts.length := by
  intro opts
  induction opts with
  | nil =>
    intro pairs c memo ps c1 h
    cases pairs <;> (simp only [computePairs] at h; cases h; simp)
  | cons opt orest ih =>
    intro pairs c memo ps c1 h
    cases pairs with
    | nil =>
      simp only [computePairs] at h
      cases h
      simp
    | cons pm prest =>
      obtain ⟨pk, msg⟩ := pm
      cases opt with
      | some g =>
        simp only [computePairs] at h
        cases hrec : computePairs P prest orest c memo with
        | none => rw [hrec] at h; cases h
        | some pc =>
          obtain ⟨ps2, c2⟩ := pc
          rw [hrec] at h
          cases h
          simp only [List.length_cons, ih _ _ _ _ _ hrec]
          omega
      | none =>
        simp only [computePairs] at h
        cases hp : (match assocLookup memo pk with
          | some k => some (k, memo)
          | none =>
            match P.from_bytes pk with
            | none => none
            | some k => some (k, (pk, k) :: memo)) with
        | none => rw [hp] at h; cases h
        | some km =>
          obtain ⟨k, memo1⟩ := km
          rw [hp] at h
          dsimp only at h
          cases hrec : computePairs P prest orest
              (lruPut c (insertKey P (pk ++ msg)) (P.pair (P.hash_to_g2 (pk ++ msg)) k))
              memo1 with
          | none => rw [hrec] at h; cases h
          | some pc =>
            obtain ⟨ps2, c2⟩ := pc
            rw [hrec] at h
            cases h
            simp only [List.length_cons, ih _ _ _ _ _ hrec]
            omega

theorem computePairs_get {PK Sig GT : Type} (P : Prims PK Sig GT) :
    ∀ (opts : List (Option GT)) (pairs : List (Bytes × Bytes)) (c : BLSCache GT)
      (memo : List (Bytes × PK)) (ps : List GT) (c1 : BLSCache GT),
      memoOK P memo →
      computePairs P pairs opts c memo = some (ps, c1) →
      ∀ (i : Nat) (pm : Bytes × Bytes) (opt : Option GT),
        pairs[i]? = some pm → opts[i]? = some opt →
        ∃ g, ps[i]? = some g ∧
          (opt = some g ∨
            (opt = none ∧ ∃ k, P.from_bytes pm.1 = some k ∧
              g = P.pair (P.hash_to_g2 (pm.1 ++ pm.2)) k)) := by
  intro opts
  induction opts with
  | nil =>
    intro pairs c memo ps c1 hm h i pm opt hpm hopt
    cases hopt
  | cons opt0 orest ih =>
    intro pairs c memo ps c1 hm h i pm opt hpm hopt
    cases pairs with
    | nil => cases hpm
    | cons pm0 prest =>
      obtain ⟨pk, msg⟩ := pm0
      cases opt0 with
      | some g0 =>
        simp only [computePairs] at h
        cases hrec : computePairs P prest orest c memo with
        | none => rw [hrec] at h; cases h
        | some pc =>
          obtain ⟨ps2, c2⟩ := pc
          rw [hrec] at h
          cases h
          cases i with
          | zero =>
            simp only [List.getElem?_cons_zero, Option.some_inj] at hpm hopt
            subst hpm
            subst hopt
            exact ⟨g0, by simp, Or.inl rfl⟩
          | succ j =>
            simp only [List.getElem?_cons_succ] at hpm hopt ⊢
            exact ih _ _ _ _ _ hm hrec j pm opt hpm hopt
      | none =>
        simp only [computePairs] at h
        cases hmemo : assocLookup memo pk with
        | some k =>
          rw [hmemo] at h
          dsimp only at h
          cases hrec : computePairs P prest orest
              (lruPut c (insertKey P (pk ++ msg)) (P.pair (P.hash_to_g2 (pk ++ msg)) k))
              memo with
          | none => rw [hrec] at h; cases h
          | some pc =>
            obtain ⟨ps2, c2⟩ := pc
            rw [hrec] at h
            cases h
            cases i with
            | zero =>
              simp only [List.getElem?_cons_zero, Option.some_inj] at hpm hopt
              subst hpm
              subst hopt
              exact ⟨_, by simp, Or.inr ⟨rfl, k, hm _ _ hmemo, rfl⟩⟩
            | succ j =>
              simp only [List.getElem?_cons_succ] at hpm hopt ⊢
              exact ih _ _ _ _ _ hm hrec j pm opt hpm hopt
        | none =>
          rw [hmemo] at h
          cases hfb : P.from_bytes pk with
          | none =>
            rw [hfb] at h
            cases h
          | some k =>
            rw [hfb] at h
            dsimp only at h
            cases hrec : computePairs P prest orest
                (lruPut c (insertKey P (pk ++ msg)) (P.pair (P.hash_to_g2 (pk ++ msg)) k))
                ((pk, k) :: memo) with
            | none => rw [hrec] at h; cases h
            | some pc =>
              obtain ⟨ps2, c2⟩ := pc
              rw [hrec] at h
              cases h
              cases i with
              | zero =>
                simp only [List.getElem?_cons_zero, Option.some_inj] at hpm hopt
                subst hpm
                subst hopt
                exact ⟨_, by simp, Or.inr ⟨rfl, k, hfb, rfl⟩⟩
              | succ j =>
                simp only [List.getElem?_cons_succ] at hpm hopt ⊢
                exact ih _ _ _ _ _ (memoOK_cons P memo pk k hm hfb) hrec j pm opt hpm hopt

theorem computePairs_allMiss {PK Sig GT : Type} [DecidableEq GT] [CommMonoid GT]
    (P : Prims PK Sig GT)
    (hu : ∀ b k, P.from_bytes b = some k → P.from_bytes_unchecked b = some k)
    (hrt : ∀ b k, P.from_bytes b = some k → P.to_bytes k = b) :
    ∀ (pairs : List (Bytes × Bytes)) (c : BLSCache GT) (memo : List (Bytes × PK)),
      memoOK P memo →
      (∀ pm ∈ pairs, (P.from_bytes pm.1).isSome) →
      ∃ ps c1 data,
        computePairs P pairs (pairs.map fun _ => (none : Option GT)) c memo =
            some (ps, c1) ∧
        fallbackData P pairs = some data ∧
        (data.map (fun pm => P.pair (P.hash_to_g2 (P.to_bytes pm.1 ++ pm.2)) pm.1)).prod =
            ps.prod ∧
        ps.length = pairs.length := by
  intro pairs
  induction pairs with
  | nil =>
    intro c memo hm hall
    exact ⟨[], c, [], rfl, rfl, rfl, rfl⟩
  | cons pm0 rest ih =>
    intro c memo hm hall
    obtain ⟨pk, msg⟩ := pm0
    have hp0 : (P.from_bytes pk).isSome := hall _ (List.mem_cons_self _ _)
    rw [Option.isSome_iff_exists] at hp0
    obtain ⟨k0, hk0⟩ := hp0
    have hrest : ∀ pm ∈ rest, (P.from_bytes pm.1).isSome := fun pm hmem =>
      hall pm (List.mem_cons_of_mem _ hmem)
    cases hmemo : assocLookup memo pk with
    | some kMemo =>
      have hkM : P.from_bytes pk = some kMemo := hm _ _ hmemo
      obtain ⟨ps2, c1, data2, hrec, hfbd, hprod, hlen⟩ :=
        ih (lruPut c (insertKey P (pk ++ msg)) (P.pair (P.hash_to_g2 (pk ++ msg)) kMemo))
          memo hm hrest
      refine ⟨P.pair (P.hash_to_g2 (pk ++ msg)) kMemo :: ps2, c1,
        (kMemo, msg) :: data2, ?_, ?_, ?_, ?_⟩
      · simp only [List.map_cons, computePairs, hmemo]
        rw [hrec]
      · simp only [fallbackData, hu _ _ hkM]
        rw [hfbd]
      · simp only [List.map_cons, List.prod_cons, hrt _ _ hkM, hprod]
      · simp only [List.length_cons, hlen]
    | none =>
      obtain ⟨ps2, c1, data2, hrec, hfbd, hprod, hlen⟩ :=
        ih (lruPut c (insertKey P (pk ++ msg)) (P.pair (P.hash_to_g2 (pk ++ msg)) k0))
          ((pk, k0) :: memo) (memoOK_cons P memo pk k0 hm hk0) hrest
      refine ⟨P.pair (P.hash_to_g2 (pk ++ msg)) k0 :: ps2, c1,
        (k0, msg) :: data2, ?_, ?_, ?_, ?_⟩
      · simp only [List.map_cons, computePairs, hmemo, hk0]
        rw [hrec]
      · simp only [fallbackData, hu _ _ hk0]
        rw [hfbd]
      · simp only [List.map_cons, List.prod_cons, hrt _ _ hk0, hprod]
      · simp only [List.length_cons, hlen]

/-! ### Product and state lemmas for `aggregate_verify` -/

theorem foldl_mul_eq_prod {GT : Type} [CommMonoid GT] (l : List GT) (a : GT) :
    List.foldl (fun x y => x * y) a l = a * l.prod := by
  induction l generalizing a with
  | nil => simp
  | cons b t ih => simp [ih, List.prod_cons, mul_assoc]

theorem pop_fold_eq_prod {GT : Type} [CommMonoid GT] (ps : List GT) (prod0 : GT)
    (h : ps.getLast? = some prod0) :
    List.foldl (fun x y => x * y) prod0 ps.dropLast = ps.prod := by
  rcases List.eq_nil_or_concat ps with hnil | ⟨l, b, rfl⟩
  · subst hnil; cases h
  · rw [List.concat_eq_append] at h ⊢
    rw [List.getLast?_concat] at h
    cases h
    rw [List.dropLast_concat, foldl_mul_eq_prod, List.prod_append, List.prod_cons,
      List.prod_nil, mul_one]
    exact mul_comm _ _

theorem aggregate_verify_of_get_pairings {PK Sig GT : Type} [DecidableEq GT]
    [CommMonoid GT] (P : Prims PK Sig GT) (pks msgs : List Bytes) (sig : Sig)
    (fc : Bool) (c : BLSCache GT) (ps : List GT) (c1 : BLSCache GT)
    (h : get_pairings P pks msgs fc c = some (ps, c1)) (hne : ps ≠ []) :
    aggregate_verify P pks msgs sig fc c =
      some (decide (ps.prod = P.pair sig P.generator), c1) := by
  unfold aggregate_verify
  rw [h]
  have hempty : ps.isEmpty = false := by
    cases ps with
    | nil => exact absurd rfl hne
    | cons a t => rfl
  cases hlast : ps.getLast? with
  | none =>
    exact absurd (List.getLast?_eq_none_iff.mp hlast) hne
  | some prod0 =>
    simp only [hempty, Bool.false_eq_true, if_false, hlast]
    rw [pop_fold_eq_prod ps prod0 hlast]

theorem get_pairings_state {PK Sig GT : Type} (P : Prims PK Sig GT)
    (pks msgs : List Bytes) (fc : Bool) (c : BLSCache GT) (ps : List GT)
    (c1 : BLSCache GT) (hlen : c.entries.length ≤ c.capacity)
    (h : get_pairings P pks msgs fc c = some (ps, c1)) :
    c1.capacity = c.capacity ∧ c1.entries.length ≤ c.capacity := by
  unfold get_pairings at h
  rcases hs : scanPairs P fc (pks.length / 2) (pks.zip msgs) c 0 with ⟨sf, c2⟩
  have hcap2 : c2.capacity = c.capacity := by
    have := scanPairs_capacity P fc (pks.length / 2) (pks.zip msgs) c 0
    rw [hs] at this
    exact this
  have hlen2 : c2.entries.length ≤ c.capacity := by
    have := scanPairs_length_le P fc (pks.length / 2) (pks.zip msgs) c 0
    rw [hs] at this
    exact Nat.le_trans this hlen
  rw [hs] at h
  cases sf with
  | none =>
    cases h
    exact ⟨hcap2, hlen2⟩
  | some opts =>
    have := computePairs_state P opts (pks.zip msgs) c2 [] ps c1
      (by rw [hcap2]; exact hlen2) h
    rw [hcap2] at this
    exact this

theorem aggregate_verify_state {PK Sig GT : Type} [DecidableEq GT] [CommMonoid GT]
    (P : Prims PK Sig GT) (pks msgs : List Bytes) (sig : Sig) (fc : Bool)
    (c : BLSCache GT) (b : Bool) (c1 : BLSCache GT)
    (hlen : c.entries.length ≤ c.capacity)
    (h : aggregate_verify P pks msgs sig fc c = some (b, c1)) :
    c1.capacity = c.capacity ∧ c1.entries.length ≤ c.capacity := by
  unfold aggregate_verify at h
  cases hg : get_pairings P pks msgs fc c with
  | none => rw [hg] at h; cases h
  | some pc =>
    obtain ⟨ps, c2⟩ := pc
    rw [hg] at h
    have hstate := get_pairings_state P pks msgs fc c ps c2 hlen hg
    dsimp only at h
    by_cases he : ps.isEmpty
    · rw [if_pos he] at h
      cases hf : fallbackData P (pks.zip msgs) with
      | none => rw [hf] at h; cases h
      | some data =>
        rw [hf] at h
        cases h
        exact hstate
    · rw [if_neg he] at h
      cases hlast : ps.getLast? with
      | none =>
        rw [hlast] at h
        cases h
        exact hstate
      | some prod0 =>
        rw [hlast] at h
        cases h
        exact hstate

theorem runGetPairings_state {PK Sig GT : Type} (P : Prims PK Sig GT) :
    ∀ (calls : List (List Bytes × List Bytes × Bool)) (c c1 : BLSCache GT),
      c.entries.length ≤ c.capacity →
      runGetPairings P calls c = some c1 →
      c1.capacity = c.capacity ∧ c1.entries.length ≤ c.capacity := by
  intro calls
  induction calls with
  | nil =>
    intro c c1 hlen h
    cases h
    exact ⟨rfl, hlen⟩
  | cons call rest ih =>
    intro c c1 hlen h
    simp only [runGetPairings] at h
    cases hg : get_pairings P call.1 call.2.1 call.2.2 c with
    | none => rw [hg] at h; cases h
    | some pc =>
      obtain ⟨ps, c2⟩ := pc
      rw [hg] at h
      dsimp only at h
      have h2 := get_pairings_state P call.1 call.2.1 call.2.2 c ps c2 hlen hg
      have h3 := ih c2 c1 (by rw [h2.1]; exact h2.2) h
      rw [h2.1] at h3
      exact h3

/-! ### Eviction lemmas for the LRU store model -/

theorem take_append_take {α : Type} (X Y : List α) (n : Nat) :
    (X ++ Y.take n).take n = (X ++ Y).take n := by
  rw [List.take_append_eq_append_take, List.take_append_eq_append_take, List.take_take]
  have : min (n - X.length) n = n - X.length := Nat.min_eq_left (Nat.sub_le _ _)
  rw [this]

theorem putAll_capacity {GT : Type} :
    ∀ (L : List (Bytes × GT)) (c : BLSCache GT), (putAll c L).capacity = c.capacity := by
  intro L
  induction L with
  | nil => intro c; rfl
  | cons e rest ih =>
    intro c
    simp only [putAll]
    rw [ih]
    rfl

theorem putAll_entries {GT : Type} :
    ∀ (L : List (Bytes × GT)) (c : BLSCache GT),
      0 < c.capacity →
      c.entries.length ≤ c.capacity →
      (∀ e ∈ L, assocLookup c.entries e.1 = none) →
      (L.map Prod.fst).Nodup →
      (putAll c L).entries = (L.reverse ++ c.entries).take c.capacity := by
  intro L
  induction L with
  | nil =>
    intro c hcap hlen hfresh hnodup
    simp only [putAll, List.reverse_nil, List.nil_append]
    exact (List.take_of_length_le hlen).symm
  | cons e rest ih =>
    intro c hcap hlen hfresh hnodup
    have hheadmiss : assocLookup c.entries e.1 = none :=
      hfresh e (List.mem_cons_self _ _)
    have hput : (lruPut c e.1 e.2).entries = ((e.1, e.2) :: c.entries).take c.capacity := by
      unfold lruPut
      rw [removeKey_eq_self _ _ hheadmiss]
    have hput_cap : (lruPut c e.1 e.2).capacity = c.capacity := rfl
    have hfresh2 : ∀ e2 ∈ rest, assocLookup (lruPut c e.1 e.2).entries e2.1 = none := by
      intro e2 hmem
      rw [hput]
      apply assocLookup_take
      have hne : e.1 ≠ e2.1 := by
        intro hk
        have : e2.1 ∈ rest.map Prod.fst := List.mem_map_of_mem Prod.fst hmem
        rw [← hk] at this
        exact (List.nodup_cons.mp hnodup).1 this
      simp only [assocLookup, hne, if_false]
      exact hfresh e2 (List.mem_cons_of_mem _ hmem)
    have hstep := ih (lruPut c e.1 e.2)
      (by rw [hput_cap]; exact hcap)
      (by rw [hput_cap]; exact lruPut_length_le c e.1 e.2)
      hfresh2
      (List.nodup_cons.mp hnodup).2
    simp only [putAll]
    rw [hstep, hput_cap, hput, take_append_take, List.reverse_cons, List.append_assoc]
    rfl

/-! ### Zip and concrete-model helper lemmas -/

theorem zip_append_right {α β : Type} :
    ∀ (l1 : List α) (l2 extra : List β), l1.length ≤ l2.length →
      l1.zip (l2 ++ extra) = l1.zip l2 := by
  intro l1
  induction l1 with
  | nil => intro l2 extra h; rfl
  | cons a t ih =>
    intro l2 extra h
    cases l2 with
    | nil => simp at h
    | cons b m =>
      simp only [List.cons_append, List.zip_cons_cons]
      rw [ih m extra (Nat.le_of_succ_le_succ h)]

theorem getElem?_zip_of {α β : Type} :
    ∀ (l1 : List α) (l2 : List β) (i : Nat) (a : α) (b : β),
      l1[i]? = some a → l2[i]? = some b → (l1.zip l2)[i]? = some (a, b) := by
  intro l1
  induction l1 with
  | nil => intro l2 i a b h1 h2; cases h1
  | cons x t ih =>
    intro l2 i a b h1 h2
    cases l2 with
    | nil => cases h2
    | cons y u =>
      cases i with
      | zero =>
        simp only [List.getElem?_cons_zero, Option.some_inj] at h1 h2
        subst h1
        subst h2
        simp [List.zip_cons_cons]
      | succ j =>
        simp only [List.getElem?_cons_succ, List.zip_cons_cons] at h1 h2 ⊢
        exact ih u j a b h1 h2

theorem from_bytesM_implies_unchecked :
    ∀ (b k : Bytes), from_bytesM b = some k → from_bytes_uncheckedM b = some k := by
  intro b k h
  unfold from_bytesM at h
  cases hu : from_bytes_uncheckedM b with
  | none => rw [hu] at h; cases h
  | some k2 =>
    rw [hu] at h
    dsimp only at h
    by_cases hs : subgroupOkM k2
    · rw [if_pos hs] at h
      have hk : k2 = k := Option.some.inj h
      subst hk
      rfl
    · rw [if_neg hs] at h
      cases h

theorem from_bytes_uncheckedM_id :
    ∀ (b k : Bytes), from_bytes_uncheckedM b = some k → k = b := by
  intro b k h
  unfold from_bytes_uncheckedM from_bytes_src at h
  by_cases ht : b.headD 0 &&& 128 ≠ 0
  · rw [if_pos ht] at h
    cases h
    rfl
  · rw [if_neg ht] at h
    cases h

theorem to_bytesM_roundtrip :
    ∀ (b k : Bytes), from_bytesM b = some k → PrimsM.to_bytes k = b := by
  intro b k h
  have h2 := from_bytesM_implies_unchecked b k h
  have h3 := from_bytes_uncheckedM_id b k h2
  subst h3
  rfl

/-! ### The claims -/

/-- C7: cache construction defaults to capacity 50000 (both through `Default`
and through `generator` with no argument), panics on a zero capacity (also
through `generator`), and succeeds with the requested capacity for every
positive argument. -/
theorem claim_C7_construction (GT : Type) :
    (∃ c : BLSCache GT, BLSCache.defaultCache GT = some c ∧ c.capacity = 50000) ∧
    (∃ c : BLSCache GT, BLSCache.generator GT none = some c ∧ c.capacity = 50000) ∧
    BLSCache.new GT 0 = none ∧
    BLSCache.generator GT (some 0) = none ∧
    (∀ n : Nat, 0 < n →
      ∃ c : BLSCache GT, BLSCache.new GT n = some c ∧ c.capacity = n ∧ c.entries = []) := by
  refine ⟨⟨⟨50000, []⟩, rfl, rfl⟩, ⟨⟨50000, []⟩, rfl, rfl⟩, rfl, rfl, ?_⟩
  intro n hn
  refine ⟨⟨n, []⟩, ?_, rfl, rfl⟩
  unfold BLSCache.new
  rw [if_neg (Nat.pos_iff_ne_zero.mp hn)]

/-- Witness for C7 at capacity 7. -/
theorem claim_C7_witness :
    (0 : Nat) < 7 ∧
    (∃ c : BLSCache Nat, BLSCache.new Nat 7 = some c ∧ c.capacity = 7 ∧ c.entries = []) :=
  ⟨by decide, (claim_C7_construction Nat).2.2.2.2 7 (by decide)⟩

/-- C8: `PublicKey::verify` returns `false` whenever the key fails the
non-infinity/subgroup validity check or the signature fails its validity
check, without consulting the core pairing-equation primitive at all (the
result is `false` for every possible `core_verify`); when both checks pass it
returns exactly the core check applied to the augmented message, the public
key bytes prepended to the message. -/
theorem claim_C8_verify {PK Sig GT : Type} (P : Prims PK Sig GT) (pk : PK)
    (msg : Bytes) (sig : Sig) :
    ((is_valid P pk = false ∨ P.sig_is_valid sig = false) →
      ∀ cv : PK → Sig → Bytes → Bool,
        verify { P with core_verify := cv } pk msg sig = false) ∧
    (is_valid P pk = true → P.sig_is_valid sig = true →
      verify P pk msg sig = P.core_verify pk sig (P.to_bytes pk ++ msg)) := by
  constructor
  · intro hbad cv
    rcases hbad with h | h
    · have h2 : is_valid { P with core_verify := cv } pk = false := h
      simp [verify, h2]
    · have h2 : Prims.sig_is_valid { P with core_verify := cv } sig = false := h
      simp [verify, h2]
      intro _ h3
      rw [h] at h3
      simp at h3
  · intro h1 h2
    simp [verify, prepend_message, h1, h2]

/-- Witness for C8: a valid key/signature pair reaches the core check, an
invalid key is rejected even when the core check would accept everything. -/
theorem claim_C8_witness :
    (is_valid PrimsM [128, 0] = true ∧ PrimsM.sig_is_valid 4 = true ∧
      verify PrimsM [128, 0] [7] 4 = PrimsM.core_verify [128, 0] 4 ([128, 0] ++ [7])) ∧
    (is_valid PrimsM [] = false ∧
      verify { PrimsM with core_verify := fun _ _ _ => true } [] [7] 4 = false) :=
  ⟨⟨by decide, by decide,
      (claim_C8_verify PrimsM [128, 0] [7] 4).2 (by decide) (by decide)⟩,
    ⟨by decide,
      (claim_C8_verify PrimsM [] [7] 4).1 (Or.inl (by decide)) _⟩⟩

/-- C1 (code evaluation at the failing input): on a batch in which every pair
is a cache miss (one pair, empty cache) and `force_cache = false`, the claim
and the spec's Heuristic-abort property require `get_pairings` to return the
empty vector and leave the entry count at 0; the code instead computes the
pairing (result length 1) and inserts it (entry count 1), because the scan
increments `missing_count` on cache hits (`pairing.is_some()`), not misses.
Conversely a batch with a majority of cache hits (two of three pairs already
cached) is aborted (result length 0) with the entry count unchanged at 2. -/
theorem claim_C1_code_evaluation :
    ((get_pairings PrimsM [[128, 0]] [[5]] false ⟨10, []⟩).map
        (fun pc => (pc.1.length, pc.2.entries.length)) = some (1, 1)) ∧
    ((get_pairings PrimsM [[128, 0], [128, 2], [128, 4]] [[5], [6], [7]] false
        ⟨10, [([99, 128, 0, 5], 3), ([99, 128, 2, 6], 4)]⟩).map
        (fun pc => (pc.1.length, pc.2.entries.length)) = some (0, 2)) := by
  exact ⟨by decide, by decide⟩

/-- C9: the cached path's key-parsing error branch is reachable from the
public interface.  With `force_cache = true` and an empty cache, a 48-byte
key rejected by the checked parse (here: outside the subgroup stand-in, or
with the compression-marker top bit clear) makes `get_pairings` panic
(`unwrap` of `None`, modelled as `none`), while the very same
subgroup-rejected key is accepted by the unchecked primitive, so a batch that
takes the fallback path (heuristic abort) verifies it without panicking. -/
theorem claim_C9_panic_reachable :
    (from_bytesM (129 :: 1 :: List.replicate 46 0) = none ∧
      get_pairings PrimsM [129 :: 1 :: List.replicate 46 0] [[1]] true ⟨5, []⟩ = none) ∧
    (from_bytes_uncheckedM (129 :: 1 :: List.replicate 46 0) =
      some (129 :: 1 :: List.replicate 46 0)) ∧
    ((aggregate_verify PrimsM
        [[128, 0], [128, 2], 129 :: 1 :: List.replicate 46 0] [[5], [6], [7]] 11 false
        ⟨5, [([99, 128, 0, 5], 3), ([99, 128, 2, 6], 4)]⟩).isSome = true) ∧
    (from_bytesM (List.replicate 48 0) = none ∧
      get_pairings PrimsM [List.replicate 48 0] [[1]] true ⟨5, []⟩ = none) := by
  exact ⟨⟨by decide, by decide⟩, by decide, by decide, ⟨by decide, by decide⟩⟩

/-- C2 counterexample: the claim quantifies over every batch, but on a batch
holding a key the checked parse rejects while the unchecked parse accepts
(here: the subgroup stand-in rejects it), `aggregate_verify` with
`force_cache = true` on an empty cache panics (`unwrap` of `None`, modelled
`none`) and returns no boolean at all, while the stateless verifier on the
same inputs returns one. -/
theorem claim_C2_counterexample :
    aggregate_verify PrimsM [129 :: 1 :: List.replicate 46 0] [[5]] 11 true ⟨5, []⟩ = none ∧
    (statelessAggregateVerify PrimsM [129 :: 1 :: List.replicate 46 0] [[5]] 11).isSome
      = true := by
  exact ⟨by decide, by decide⟩

/-- C2 (amended): for every batch whose keys all parse under the checked
parser, `aggregate_verify` with `force_cache = true` on an empty-store cache
returns the same boolean as the stateless Batch Verifier on the same keys,
messages and signature — given the spec-level facts that the unchecked parse
agrees with the checked parse wherever the latter succeeds and that
serialization round-trips a parsed key back to its input bytes. -/
theorem claim_C2_equivalence {PK Sig GT : Type} [DecidableEq GT] [CommMonoid GT]
    (P : Prims PK Sig GT) (pks msgs : List Bytes) (sig : Sig) (cap : Nat)
    (hp : ∀ pm ∈ pks.zip msgs, (P.from_bytes pm.1).isSome)
    (hu : ∀ b k, P.from_bytes b = some k → P.from_bytes_unchecked b = some k)
    (hrt : ∀ b k, P.from_bytes b = some k → P.to_bytes k = b) :
    ∃ (b : Bool) (c1 : BLSCache GT),
      aggregate_verify P pks msgs sig true ⟨cap, []⟩ = some (b, c1) ∧
      statelessAggregateVerify P pks msgs sig = some b := by
  obtain ⟨ps, c1, data, hcp, hfb, hprod, hlen⟩ :=
    computePairs_allMiss P hu hrt (pks.zip msgs) ⟨cap, []⟩ [] (memoOK_nil P) hp
  have hscan := scanPairs_nil_entries P true (pks.length / 2) (pks.zip msgs) ⟨cap, []⟩ rfl 0
  have hgp : get_pairings P pks msgs true ⟨cap, []⟩ = some (ps, c1) := by
    unfold get_pairings
    rw [hscan]
    exact hcp
  by_cases hz : pks.zip msgs = []
  · have hps : ps = [] := by
      apply List.length_eq_zero.mp
      rw [hlen, hz]
      rfl
    subst hps
    refine ⟨agg_ver P sig data, c1, ?_, ?_⟩
    · have hav : aggregate_verify P pks msgs sig true ⟨cap, []⟩ =
          (match fallbackData P (pks.zip msgs) with
           | none => none
           | some d => some (agg_ver P sig d, c1)) := by
        unfold aggregate_verify
        rw [hgp]
        rfl
      rw [hav, hfb]
    · unfold statelessAggregateVerify
      rw [hfb]
  · have hne : ps ≠ [] := by
      intro hcontra
      apply hz
      apply List.length_eq_zero.mp
      rw [← hlen, hcontra]
      rfl
    refine ⟨decide (ps.prod = P.pair sig P.generator), c1, ?_, ?_⟩
    · exact aggregate_verify_of_get_pairings P pks msgs sig true ⟨cap, []⟩ ps c1 hgp hne
    · unfold statelessAggregateVerify
      rw [hfb]
      dsimp only
      unfold agg_ver
      rw [hprod]

/-- Witness for C2 on a one-pair batch with a well-formed key. -/
theorem claim_C2_witness :
    (∀ pm ∈ ([[128, 0]] : List Bytes).zip [[5]], (PrimsM.from_bytes pm.1).isSome) ∧
    ∃ (b : Bool) (c1 : BLSCache Nat),
      aggregate_verify PrimsM [[128, 0]] [[5]] 11 true ⟨5, []⟩ = some (b, c1) ∧
      statelessAggregateVerify PrimsM [[128, 0]] [[5]] 11 = some b :=
  ⟨by decide,
    claim_C2_equivalence PrimsM [[128, 0]] [[5]] 11 5 (by decide)
      from_bytesM_implies_unchecked to_bytesM_roundtrip⟩

/-- C3: whenever `get_pairings` yields a non-empty list of pairing results,
`aggregate_verify` returns `true` exactly when the product of all the results
(the order-independent `List.prod` of the commutative GT monoid) equals the
pairing of the aggregate signature against the G1 generator, and the cache
state is the one `get_pairings` produced. -/
theorem claim_C3_product_equation {PK Sig GT : Type} [DecidableEq GT] [CommMonoid GT]
    (P : Prims PK Sig GT) (pks msgs : List Bytes) (sig : Sig) (fc : Bool)
    (c : BLSCache GT) (ps : List GT) (c1 : BLSCache GT)
    (h : get_pairings P pks msgs fc c = some (ps, c1)) (hne : ps ≠ []) :
    ∃ b : Bool, aggregate_verify P pks msgs sig fc c = some (b, c1) ∧
      (b = true ↔ ps.prod = P.pair sig P.generator) := by
  refine ⟨decide (ps.prod = P.pair sig P.generator),
    aggregate_verify_of_get_pairings P pks msgs sig fc c ps c1 h hne, ?_⟩
  simp

/-- Witness for C3 on a one-pair batch producing one pairing result. -/
theorem claim_C3_witness :
    (get_pairings PrimsM [[128, 0]] [[5]] true ⟨5, []⟩ =
        some ([262], ⟨5, [([99, 128, 0, 5], 262)]⟩) ∧
      ([262] : List Nat) ≠ []) ∧
    ∃ b : Bool,
      aggregate_verify PrimsM [[128, 0]] [[5]] 11 true ⟨5, []⟩ =
          some (b, ⟨5, [([99, 128, 0, 5], 262)]⟩) ∧
      (b = true ↔ ([262] : List Nat).prod = PrimsM.pair 11 PrimsM.generator) :=
  ⟨⟨by decide, by decide⟩,
    claim_C3_product_equation PrimsM [[128, 0]] [[5]] 11 true ⟨5, []⟩ [262]
      ⟨5, [([99, 128, 0, 5], 262)]⟩ (by decide) (by decide)⟩

/-- C6: the scan phase's incremental two-chunk hash equals the SHA-256 of the
byte concatenation of the public key bytes and the message with no separator,
the population phase computes the same digest from the pre-concatenated
augmented message, and a pairing produced by a single-pair `get_pairings`
call is stored in (or served from) the cache under exactly that digest. -/
theorem claim_C6_cache_key {PK Sig GT : Type} (P : Prims PK Sig GT) (pk msg : Bytes) :
    scanKey P pk msg = P.sha256 (pk ++ msg) ∧
    insertKey P (pk ++ msg) = scanKey P pk msg ∧
    (∀ (c : BLSCache GT) (g : GT) (c1 : BLSCache GT), 0 < c.capacity →
      get_pairings P [pk] [msg] true c = some ([g], c1) →
      assocLookup c1.entries (P.sha256 (pk ++ msg)) = some g) := by
  refine ⟨rfl, rfl, ?_⟩
  intro c g c1 hcap h
  have h' : computePairs P [(pk, msg)] [(lruGet c (scanKey P pk msg)).1]
      (lruGet c (scanKey P pk msg)).2 [] = some ([g], c1) := h
  cases hlk : assocLookup c.entries (scanKey P pk msg) with
  | some v =>
    have hget : lruGet c (scanKey P pk msg) =
        (some v, ⟨c.capacity,
          (scanKey P pk msg, v) :: removeKey c.entries (scanKey P pk msg)⟩) := by
      unfold lruGet
      rw [hlk]
    rw [hget] at h'
    have h'' : (some ([v], (⟨c.capacity,
        (scanKey P pk msg, v) :: removeKey c.entries (scanKey P pk msg)⟩ : BLSCache GT)) :
          Option (List GT × BLSCache GT)) = some ([g], c1) := h'
    cases h''
    rw [show scanKey P pk msg = P.sha256 (pk ++ msg) from rfl]
    simp [assocLookup]
  | none =>
    have hget : lruGet c (scanKey P pk msg) = (none, c) := lruGet_miss c _ hlk
    rw [hget] at h'
    simp only [computePairs, assocLookup] at h'
    cases hfb : P.from_bytes pk with
    | none =>
      rw [hfb] at h'
      cases h'
    | some k =>
      rw [hfb] at h'
      dsimp only at h'
      cases h'
      exact lruPut_lookup_self c _ _ hcap

/-- Witness for C6 on a single-pair call against an empty cache. -/
theorem claim_C6_witness :
    scanKey PrimsM [128, 0] [5] = PrimsM.sha256 ([128, 0] ++ [5]) ∧
    (0 : Nat) < (⟨5, []⟩ : BLSCache Nat).capacity ∧
    get_pairings PrimsM [[128, 0]] [[5]] true ⟨5, []⟩ =
      some ([262], ⟨5, [([99, 128, 0, 5], 262)]⟩) ∧
    assocLookup ([([99, 128, 0, 5], 262)] : List (Bytes × Nat))
      (PrimsM.sha256 ([128, 0] ++ [5])) = some 262 :=
  ⟨(claim_C6_cache_key PrimsM [128, 0] [5]).1, by decide, by decide,
    (claim_C6_cache_key PrimsM [128, 0] [5]).2.2 ⟨5, []⟩ 262
      ⟨5, [([99, 128, 0, 5], 262)]⟩ (by decide) (by decide)⟩

/-- C5: on equal-length inputs, a non-empty `get_pairings` result has exactly
the input length, and its i-th element corresponds to the i-th (key, message)
pair in input order: the value cached under SHA-256 of `pk ++ msg` in the
starting cache when present, and otherwise the pairing of the hashed
augmented message against the checked-parsed key. -/
theorem claim_C5_length_and_order {PK Sig GT : Type} (P : Prims PK Sig GT)
    (pks msgs : List Bytes) (fc : Bool) (c : BLSCache GT) (ps : List GT)
    (c1 : BLSCache GT) (hlen : pks.length = msgs.length)
    (h : get_pairings P pks msgs fc c = some (ps, c1)) (hne : ps ≠ []) :
    ps.length = pks.length ∧
    (∀ (i : Nat) (pk msg : Bytes), pks[i]? = some pk → msgs[i]? = some msg →
      ps[i]? = specPairingResult P c pk msg) := by
  unfold get_pairings at h
  rcases hs : scanPairs P fc (pks.length / 2) (pks.zip msgs) c 0 with ⟨sf, c2⟩
  rw [hs] at h
  cases sf with
  | none =>
    cases h
    exact absurd rfl hne
  | some opts =>
    dsimp only at h
    have hopts : opts = (pks.zip msgs).map
        (fun pm => assocLookup c.entries (scanKey P pm.1 pm.2)) := by
      have h2 := scanPairs_some P fc (pks.length / 2) (pks.zip msgs) c 0 opts
      rw [hs] at h2
      exact h2 rfl
    have hpslen : ps.length = pks.length := by
      have hl := computePairs_length P opts (pks.zip msgs) c2 [] ps c1 h
      rw [hopts, List.length_map, Nat.min_self, List.length_zip, hlen,
        Nat.min_self] at hl
      rw [hl, hlen]
    refine ⟨hpslen, ?_⟩
    intro i pk msg hpk hmsg
    have hz : (pks.zip msgs)[i]? = some (pk, msg) :=
      getElem?_zip_of pks msgs i pk msg hpk hmsg
    have hoi : opts[i]? = some (assocLookup c.entries (scanKey P pk msg)) := by
      rw [hopts, List.getElem?_map, hz]
      rfl
    obtain ⟨g, hg, hcases⟩ := computePairs_get P opts (pks.zip msgs) c2 [] ps c1
      (memoOK_nil P) h i (pk, msg) _ hz hoi
    rcases hcases with hcase | ⟨hnone, k, hk, hgk⟩
    · rw [hg]
      unfold specPairingResult
      rw [show P.sha256 (pk ++ msg) = scanKey P pk msg from rfl, hcase]
    · rw [hg]
      unfold specPairingResult
      rw [show P.sha256 (pk ++ msg) = scanKey P pk msg from rfl, hnone]
      dsimp only
      rw [hk, hgk]
      rfl

/-- Witness for C5 on a two-pair batch against an empty cache. -/
theorem claim_C5_witness :
    (([[128, 0], [128, 2]] : List Bytes).length = ([[5], [6]] : List Bytes).length ∧
      get_pairings PrimsM [[128, 0], [128, 2]] [[5], [6]] true ⟨5, []⟩ =
        some ([262, 267], ⟨5, [([99, 128, 2, 6], 267), ([99, 128, 0, 5], 262)]⟩) ∧
      ([262, 267] : List Nat) ≠ []) ∧
    (([262, 267] : List Nat).length = ([[128, 0], [128, 2]] : List Bytes).length ∧
      ∀ (i : Nat) (pk msg : Bytes),
        ([[128, 0], [128, 2]] : List Bytes)[i]? = some pk →
        ([[5], [6]] : List Bytes)[i]? = some msg →
        ([262, 267] : List Nat)[i]? = specPairingResult PrimsM ⟨5, []⟩ pk msg) :=
  ⟨⟨by decide, by decide, by decide⟩,
    claim_C5_length_and_order PrimsM [[128, 0], [128, 2]] [[5], [6]] true ⟨5, []⟩
      [262, 267] ⟨5, [([99, 128, 2, 6], 267), ([99, 128, 0, 5], 262)]⟩
      (by decide) (by decide) (by decide)⟩

/-- C10: `get_pairings` never fails fast on mismatched lengths: the scanned
and computed pairs are exactly those of the zip of the two inputs, so a
non-aborted result has length `min |pks| |msgs|`, and appending extra
messages beyond the number of keys never changes the result. -/
theorem claim_C10_truncation {PK Sig GT : Type} (P : Prims PK Sig GT)
    (pks msgs : List Bytes) (fc : Bool) (c : BLSCache GT) :
    (∀ (ps : List GT) (c1 : BLSCache GT),
      get_pairings P pks msgs fc c = some (ps, c1) →
      ps = [] ∨ ps.length = min pks.length msgs.length) ∧
    (∀ extra : List Bytes, pks.length ≤ msgs.length →
      get_pairings P pks (msgs ++ extra) fc c = get_pairings P pks msgs fc c) := by
  constructor
  · intro ps c1 h
    unfold get_pairings at h
    rcases hs : scanPairs P fc (pks.length / 2) (pks.zip msgs) c 0 with ⟨sf, c2⟩
    rw [hs] at h
    cases sf with
    | none =>
      cases h
      exact Or.inl rfl
    | some opts =>
      dsimp only at h
      right
      have hopts : opts = (pks.zip msgs).map
          (fun pm => assocLookup c.entries (scanKey P pm.1 pm.2)) := by
        have h2 := scanPairs_some P fc (pks.length / 2) (pks.zip msgs) c 0 opts
        rw [hs] at h2
        exact h2 rfl
      have hl := computePairs_length P opts (pks.zip msgs) c2 [] ps c1 h
      rw [hopts, List.length_map, Nat.min_self, List.length_zip] at hl
      exact hl
  · intro extra hle
    unfold get_pairings
    rw [zip_append_right pks msgs extra hle]

/-- Witness for C10 on mismatched-length inputs. -/
theorem claim_C10_witness :
    (get_pairings PrimsM [[128, 0], [128, 2]] [[5]] true ⟨5, []⟩ =
        some ([262], ⟨5, [([99, 128, 0, 5], 262)]⟩) ∧
      (([262] : List Nat) = [] ∨ ([262] : List Nat).length =
        min ([[128, 0], [128, 2]] : List Bytes).length ([[5]] : List Bytes).length)) ∧
    (([[128, 0]] : List Bytes).length ≤ ([[5]] : List Bytes).length ∧
      get_pairings PrimsM [[128, 0]] ([[5]] ++ [[9]]) true ⟨5, []⟩ =
        get_pairings PrimsM [[128, 0]] [[5]] true ⟨5, []⟩) :=
  ⟨⟨by decide,
      (claim_C10_truncation PrimsM [[128, 0], [128, 2]] [[5]] true ⟨5, []⟩).1 [262]
        ⟨5, [([99, 128, 0, 5], 262)]⟩ (by decide)⟩,
    ⟨by decide,
      (claim_C10_truncation PrimsM [[128, 0]] [[5]] true ⟨5, []⟩).2 [[9]] (by decide)⟩⟩

/-- C4: over any sequence of `get_pairings` calls (and any `aggregate_verify`
call) on a cache of positive capacity `cap`, the entry count never exceeds
`cap`; and an insertion at full count evicts the least-recently-used entry:
folding `cap + 1` distinct un-retouched insertions into an empty cache leaves
exactly `cap` entries and a lookup of the first-inserted key misses. -/
theorem claim_C4_capacity_and_eviction {GT : Type} [DecidableEq GT] [CommMonoid GT]
    (cap : Nat) (hcap : 0 < cap) :
    (∀ {PK Sig : Type} (P : Prims PK Sig GT)
        (calls : List (List Bytes × List Bytes × Bool)) (c c1 : BLSCache GT),
      c.capacity = cap → c.entries.length ≤ cap →
      runGetPairings P calls c = some c1 → c1.entries.length ≤ cap) ∧
    (∀ {PK Sig : Type} (P : Prims PK Sig GT) (pks msgs : List Bytes) (sig : Sig)
        (fc : Bool) (c : BLSCache GT) (b : Bool) (c1 : BLSCache GT),
      c.capacity = cap → c.entries.length ≤ cap →
      aggregate_verify P pks msgs sig fc c = some (b, c1) →
      c1.entries.length ≤ cap) ∧
    (∀ L : List (Bytes × GT), (L.map Prod.fst).Nodup → L.length = cap + 1 →
      (putAll ⟨cap, []⟩ L).entries.length = cap ∧
      ∀ e0, L.head? = some e0 →
        assocLookup (putAll ⟨cap, []⟩ L).entries e0.1 = none) := by
  refine ⟨?_, ?_, ?_⟩
  · intro PK Sig P calls c c1 hc hlen h
    have h2 := runGetPairings_state P calls c c1 (by rw [hc]; exact hlen) h
    rw [hc] at h2
    exact h2.2
  · intro PK Sig P pks msgs sig fc c b c1 hc hlen h
    have h2 := aggregate_verify_state P pks msgs sig fc c b c1 (by rw [hc]; exact hlen) h
    rw [hc] at h2
    exact h2.2
  · intro L hnodup hlen3
    have hfresh : ∀ e ∈ L, assocLookup (⟨cap, []⟩ : BLSCache GT).entries e.1 = none := by
      intro e _
      rfl
    have hent := putAll_entries L ⟨cap, []⟩ hcap (Nat.zero_le _) hfresh hnodup
    rw [List.append_nil] at hent
    constructor
    · rw [hent]
      simp only [List.length_take, List.length_reverse, hlen3]
      omega
    · intro e0 he0
      cases L with
      | nil => cases he0
      | cons e rest =>
        simp only [List.head?_cons, Option.some_inj] at he0
        subst he0
        rw [hent]
        have hrevlen : rest.reverse.length = cap := by
          rw [List.length_reverse]
          simp only [List.length_cons] at hlen3
          omega
        rw [List.reverse_cons, List.take_append_eq_append_take,
          List.take_of_length_le (Nat.le_of_eq hrevlen), hrevlen, Nat.sub_self,
          List.take_zero, List.append_nil]
        rw [assocLookup_eq_none_iff]
        intro hmem
        rw [List.map_reverse, List.mem_reverse] at hmem
        simp only [List.map_cons] at hnodup
        exact (List.nodup_cons.mp hnodup).1 hmem

/-- Witness for C4 at capacity 2: three distinct single-pair calls, and three
distinct direct insertions. -/
theorem claim_C4_witness :
    ((0 : Nat) < 2 ∧ (⟨2, []⟩ : BLSCache Nat).capacity = 2 ∧
      (⟨2, []⟩ : BLSCache Nat).entries.length ≤ 2 ∧
      runGetPairings PrimsM
          [([[128, 0]], [[5]], true), ([[128, 2]], [[6]], true), ([[128, 4]], [[7]], true)]
          ⟨2, []⟩ =
        some ⟨2, [([99, 128, 4, 7], 272), ([99, 128, 2, 6], 267)]⟩ ∧
      (⟨2, [([99, 128, 4, 7], 272), ([99, 128, 2, 6], 267)]⟩ : BLSCache Nat).entries.length
        ≤ 2) ∧
    ((([([1], 10), ([2], 20), ([3], 30)] : List (Bytes × Nat)).map Prod.fst).Nodup ∧
      ([([1], 10), ([2], 20), ([3], 30)] : List (Bytes × Nat)).length = 2 + 1 ∧
      (putAll (⟨2, []⟩ : BLSCache Nat) [([1], 10), ([2], 20), ([3], 30)]).entries.length
        = 2 ∧
      assocLookup
        (putAll (⟨2, []⟩ : BLSCache Nat) [([1], 10), ([2], 20), ([3], 30)]).entries [1]
        = none) :=
  ⟨⟨by decide, rfl, by decide, by decide,
      (claim_C4_capacity_and_eviction 2 (by decide)).1 PrimsM
        [([[128, 0]], [[5]], true), ([[128, 2]], [[6]], true), ([[128, 4]], [[7]], true)]
        ⟨2, []⟩ ⟨2, [([99, 128, 4, 7], 272), ([99, 128, 2, 6], 267)]⟩ rfl (by decide)
        (by decide)⟩,
    ⟨by decide, by decide,
      ((claim_C4_capacity_and_eviction 2 (by decide)).2.2
          [([1], 10), ([2], 20), ([3], 30)] (by decide) (by decide)).1,
      ((claim_C4_capacity_and_eviction 2 (by decide)).2.2
          [([1], 10), ([2], 20), ([3], 30)] (by decide) (by decide)).2
        ([1], 10) rfl⟩⟩

end ChiaBLS
